import Mathlib

/-!
Shallow embedding, in Lean 4, of the format-detection, parsing-dispatch,
validation and repair pipeline of the STL generator web application
(src/app.js, src/fixer.js).  Strings are modelled as lists of characters;
each JavaScript regular expression used by the source is embedded as an
explicit executable matcher over lists of characters, and each pipeline
function is translated step by step from the source.
-/

/-! ## Character classes (JavaScript regular-expression semantics) -/

/-- The JavaScript whitespace class, as matched by the regex escape for
whitespace and removed by the trim method of strings: tab, line feed,
vertical tab, form feed, carriage return, space, no-break space, ogham
space mark, the en-quad through hair-space range, line separator,
paragraph separator, narrow no-break space, medium mathematical space,
ideographic space, and the byte order mark. -/
def isJsSpace (c : Char) : Bool :=
  let n := c.toNat
  n == 9 || n == 10 || n == 11 || n == 12 || n == 13 || n == 32 ||
  n == 0xA0 || n == 0x1680 || (0x2000 ≤ n && n ≤ 0x200A) ||
  n == 0x2028 || n == 0x2029 || n == 0x202F || n == 0x205F ||
  n == 0x3000 || n == 0xFEFF

/-- The JavaScript word-character class: ASCII letters, digits, underscore. -/
def isWordChar (c : Char) : Bool :=
  let n := c.toNat
  (97 ≤ n && n ≤ 122) || (65 ≤ n && n ≤ 90) || (48 ≤ n && n ≤ 57) || n == 95

/-- ASCII lower-casing, the effect of the i flag of a JavaScript regex on
the ASCII patterns used by this code base. -/
def lowerAscii (c : Char) : Char :=
  if 65 ≤ c.toNat && c.toNat ≤ 90 then Char.ofNat (c.toNat + 32) else c

/-- Case-insensitive character comparison (ASCII). -/
def ciEq (a b : Char) : Bool := lowerAscii a == lowerAscii b

/-! ## Generic list-of-characters utilities -/

/-- Case-insensitive prefix test: the pattern is a prefix of the list. -/
def startsWithCI : List Char → List Char → Bool
  | [], _ => true
  | _ :: _, [] => false
  | p :: ps, c :: cs => ciEq p c && startsWithCI ps cs

/-- Case-sensitive prefix test. -/
def startsWithCS : List Char → List Char → Bool
  | [], _ => true
  | _ :: _, [] => false
  | p :: ps, c :: cs => (p == c) && startsWithCS ps cs

/-- Matches the pattern at the head of the list followed by a word
boundary, the embedding of a regex of the shape pattern-then-b-escape
under the i flag: the pattern is a prefix and the following character,
when present, is not a word character. -/
def startsTokenCI (pat l : List Char) : Bool :=
  startsWithCI pat l &&
    (match l.drop pat.length with
     | [] => true
     | c :: _ => !(isWordChar c))

/-- The token occurs somewhere in the list (case-insensitive, with a
trailing word boundary). -/
def containsTokenCI (pat : List Char) : List Char → Bool
  | [] => startsTokenCI pat []
  | c :: rest => startsTokenCI pat (c :: rest) || containsTokenCI pat rest

/-- The pattern occurs somewhere in the list (case-sensitive, plain
substring test, as the includes method of JavaScript strings). -/
def containsCS (pat : List Char) : List Char → Bool
  | [] => startsWithCS pat []
  | c :: rest => startsWithCS pat (c :: rest) || containsCS pat rest

/-- Replacement of every carriage return, optionally followed by a line
feed, with a single line feed: the global regex replace of CR-LF-or-CR
with LF applied by the repairers before splitting into lines. -/
def normCR : List Char → List Char
  | [] => []
  | '\r' :: '\n' :: rest => '\n' :: normCR rest
  | '\r' :: rest => '\n' :: normCR rest
  | c :: rest => c :: normCR rest

/-- Splitting on a given character, the split method of JavaScript
strings with a single-character separator. -/
def splitOnChar (sep : Char) : List Char → List (List Char)
  | [] => [[]]
  | c :: rest =>
    if c = sep then [] :: splitOnChar sep rest
    else
      match splitOnChar sep rest with
      | [] => [[c]]
      | h :: t => (c :: h) :: t

/-- Splitting on line feeds. -/
def splitOnNL (l : List Char) : List (List Char) := splitOnChar '\n' l

/-- Joining lines with line feeds, the join method with a line feed
separator. -/
def joinNL : List (List Char) → List Char
  | [] => []
  | [l] => l
  | l :: ls => l ++ '\n' :: joinNL ls

/-- The trim method of JavaScript strings: drop leading and trailing
JavaScript whitespace. -/
def jsTrimL (l : List Char) : List Char :=
  ((l.dropWhile isJsSpace).reverse.dropWhile isJsSpace).reverse

/-- Splitting a line into whitespace-separated tokens, the split method
with a one-or-more-whitespace regex, applied by the OFF parser to lines
that have already been trimmed (so no empty leading or trailing token
arises). -/
def splitWS : List Char → List (List Char)
  | [] => []
  | c :: rest =>
    if isJsSpace c then splitWS rest
    else
      match rest.head? with
      | none => [[c]]
      | some r =>
        if isJsSpace r then [c] :: splitWS rest
        else
          match splitWS rest with
          | [] => [[c]]
          | t :: ts => (c :: t) :: ts

/-! ## STL repairer (repairStlText in src/fixer.js lines 53-71 and
src/app.js lines 112-130; both copies are identical) -/

/-- Replace every comma with a space: the global comma-to-space
replacement. -/
def decomma (l : List Char) : List Char :=
  l.map fun c => if c = ',' then ' ' else c

/-- Characters kept by the non-printable stripping step: tab, line feed,
carriage return, and printable ASCII (0x20 to 0x7E).  Everything else is
removed by the negated-class global replace. -/
def keepPrintable (c : Char) : Bool :=
  c == '\t' || c == '\n' || c == '\r' || (32 ≤ c.toNat && c.toNat ≤ 126)

/-- Drop the characters outside the kept class. -/
def stripNP (l : List Char) : List Char := l.filter keepPrintable

/-- The cleaned line list of the STL repairer: normalize line endings,
replace commas, strip non-printables, split into lines, trim each line,
drop blank lines. -/
def stlLines (l : List Char) : List (List Char) :=
  ((splitOnNL (stripNP (decomma (normCR l)))).map jsTrimL).filter
    fun ln => !ln.isEmpty

/-- The cleaned text: the cleaned lines joined with line feeds. -/
def stlCleanL (l : List Char) : List Char := joinNL (stlLines l)

/-- Start-of-text solid token, the caret-solid-boundary regex under the
i flag. -/
def startsSolid (l : List Char) : Bool := startsTokenCI "solid".data l

/-- An endsolid token occurs anywhere, the endsolid-boundary regex under
the i flag (no leading boundary in the source regex). -/
def containsEndsolid (l : List Char) : Bool := containsTokenCI "endsolid".data l

/-- The solid-model header line prepended when no solid header exists,
together with its joining line feed. -/
def solidModelNL : List Char := "solid model\n".data

/-- The endsolid-model closer appended when no endsolid token exists,
preceded by its joining line feed. -/
def endsolidModelNL : List Char := "\nendsolid model".data

/-- The solid-header step of repairStlText: the cleaned text, with a
solid-model header line prepended when the text does not open with a
solid token. -/
def stlWithSolid (l : List Char) : List Char :=
  if startsSolid (stlCleanL l) then stlCleanL l
  else solidModelNL ++ stlCleanL l

/-- repairStlText on a list of characters, translated step by step from
the source: clean, prepend a solid header if missing, then append an
endsolid closer if no endsolid token is present. -/
def repairStlL (l : List Char) : List Char :=
  if containsEndsolid (stlWithSolid l) then stlWithSolid l
  else stlWithSolid l ++ endsolidModelNL

/-- repairStlText on strings. -/
def repairStlText (s : String) : String := String.mk (repairStlL s.data)

/-! ## SCAD text normalizer (normalizeScadText in src/fixer.js lines
73-79) -/

/-- Strip a single leading byte order mark, the caret-BOM regex replace. -/
def bomStrip : List Char → List Char
  | '\uFEFF' :: rest => rest
  | l => l

/-- Control characters removed by the SCAD normalizer: 0x00-0x08, 0x0B,
0x0C, 0x0E-0x1F. -/
def isScadControl (c : Char) : Bool :=
  let n := c.toNat
  n ≤ 8 || n == 11 || n == 12 || (14 ≤ n && n ≤ 31)

/-- normalizeScadText: strip a leading byte order mark, normalize line
endings, replace no-break spaces with spaces, drop control characters. -/
def normalizeScadText (s : String) : String :=
  String.mk
    ((((normCR (bomStrip s.data)).map fun c =>
        if c = '\u00A0' then ' ' else c).filter fun c => !isScadControl c))

/-! ## SCAD repairer (repairScadText in src/fixer.js lines 81-100) -/

/-- Leading character of an identifier: ASCII letter or underscore. -/
def isIdentStart (c : Char) : Bool :=
  let n := c.toNat
  (97 ≤ n && n ≤ 122) || (65 ≤ n && n ≤ 90) || n == 95

/-- The geometry-producing keywords targeted by the SCAD repairer. -/
def scadGeomKeywords : List (List Char) :=
  ["sphere".data, "cube".data, "cylinder".data, "polyhedron".data,
   "text".data, "import".data, "linear_extrude".data, "rotate_extrude".data]

/-- The remainder of a rewritten line begins with one of the geometry
keywords followed by a word boundary. -/
def startsGeomKw (l : List Char) : Bool :=
  scadGeomKeywords.any fun kw => startsTokenCI kw l

/-- The core of the assignment-misuse matcher of the SCAD repairer, the
embedding of the caret, whitespace group, identifier, equals,
geometry-keyword, boundary regex: after the leading whitespace there
must be an identifier, optional whitespace, an equals sign, optional
whitespace and then a geometry keyword at a word boundary; the text from
the keyword on is returned. -/
def scadAssignRest (l : List Char) : Option (List Char) :=
  match l.dropWhile isJsSpace with
  | [] => none
  | c :: rest =>
    if isIdentStart c then
      match (rest.dropWhile isWordChar).dropWhile isJsSpace with
      | '=' :: r4 =>
        if startsGeomKw (r4.dropWhile isJsSpace) then
          some (r4.dropWhile isJsSpace)
        else none
      | _ => none
    else none

/-- The full matcher with the prefix-stripping replace: on a match the
rewritten line is the captured leading whitespace followed by the text
from the geometry keyword on. -/
def scadAssignMatch (l : List Char) : Option (List Char) :=
  (scadAssignRest l).map fun r5 => l.takeWhile isJsSpace ++ r5

/-- The lines repairScadText works on: normalize line endings, split on
line feeds, and strip a byte order mark from the first line only. -/
def scadAdjLines (s : String) : List (List Char) :=
  match splitOnNL (normCR s.data) with
  | [] => []
  | l0 :: rest => bomStrip l0 :: rest

/-- repairScadText: rewrite each line matching the assignment-misuse
pattern, report whether any line was rewritten. -/
def repairScadText (s : String) : String × Bool :=
  let adj := scadAdjLines s
  (String.mk (joinNL (adj.map fun l => (scadAssignMatch l).getD l)),
   adj.any fun l => (scadAssignMatch l).isSome)

/-! ## SCAD compiler model (compileScad in src/fixer.js lines 116-138,
fixScad in lines 140-166).  The external engine renderToStl is an
oracle; compileScad-level behavior is a function of its outcome. -/

/-- Outcome of one renderToStl call of the external engine: an exception,
a null-or-undefined result, or a string result. -/
inductive RenderOutcome where
  | raise (msg : String)
  | retNull
  | ret (s : String)
deriving DecidableEq, Repr

/-- compileScad: normalize the text, invoke the engine, raise on
exception, on null-or-undefined output, and on output that is empty
after trimming; otherwise return the output. -/
def compileScadModel (render : String → RenderOutcome) (text : String) :
    Except String String :=
  match render (normalizeScadText text) with
  | .raise m => .error m
  | .retNull => .error "SCAD produced no output."
  | .ret s =>
    if (jsTrimL s.data).isEmpty then .error "SCAD produced empty output."
    else .ok s

/-- Result record of fixScad: the fixed text, whether the repairer
changed it, whether compilation finally succeeded, and the surfaced
diagnostic on failure. -/
structure FixScadResult where
  fixed : String
  changed : Bool
  ok : Bool
  errorMessage : Option String
deriving DecidableEq, Repr

/-- fixScad: compile once; on failure run the SCAD repairer; if it made
no change surface the original diagnostic; otherwise recompile the
repaired text exactly once and report that outcome. -/
def fixScadModel (render : String → RenderOutcome) (text : String) :
    FixScadResult :=
  match compileScadModel render text with
  | .ok _ => ⟨text, false, true, none⟩
  | .error e =>
    let r := repairScadText text
    if r.2 = false then ⟨text, false, false, some e⟩
    else
      match compileScadModel render r.1 with
      | .ok _ => ⟨r.1, true, true, none⟩
      | .error e2 => ⟨r.1, true, false, some e2⟩

/-- The ordered list of texts passed to compileScad during one fixScad
call. -/
def fixScadTrace (render : String → RenderOutcome) (text : String) :
    List String :=
  match compileScadModel render text with
  | .ok _ => [text]
  | .error _ =>
    let r := repairScadText text
    if r.2 = false then [text] else [text, r.1]

/-! ## SCAD parse acceptance check (parseScad in src/app.js lines
396-405).  After renderToStl returns, the source tests the output with a
regex whose source text is solid-backslash-backslash-b, i.e. it requires
the literal two characters backslash and b after the word solid, not a
word boundary. -/

/-- The literal pattern required by the parseScad output test: solid
followed by a backslash and the letter b. -/
def solidBackslashB : List Char := ['s', 'o', 'l', 'i', 'd', '\\', 'b']

/-- Case-insensitive containment of the literal solid-backslash-b
pattern, the test of the doubly escaped regex in parseScad. -/
def containsSolidBackslashB (l : List Char) : Bool :=
  let rec go : List Char → Bool
    | [] => startsWithCI solidBackslashB []
    | c :: rest => startsWithCI solidBackslashB (c :: rest) || go rest
  go l

/-- parseScad raises a compile failure exactly when the engine output is
falsy (the empty string) or fails the doubly escaped regex test. -/
def parseScadThrows (stlOutput : String) : Bool :=
  stlOutput == "" || !containsSolidBackslashB stlOutput.data

/-! ## Format sniffer (detectFormatFromText in src/app.js lines 329-353,
detectFormatFromFile in lines 355-366, handleText in lines 554-571,
handleFile in lines 573-609) -/

/-- The format tags of the viewer. -/
inductive FormatTag where
  | stl | obj | ply | off | gltf | glb | threeMf | scad
deriving DecidableEq, Repr

/-- Heuristic 1: the trimmed text opens a JSON object and contains a
quoted asset key followed by a colon and an opening brace.  The asset
regex is case-sensitive in the source. -/
def ruleGltf (tr : List Char) : Bool :=
  ((tr.dropWhile isJsSpace).head? == some '{') && containsAssetKey tr
where
  /-- Occurrence of quote-asset-quote, whitespace, colon, whitespace,
  opening brace. -/
  containsAssetKey : List Char → Bool
    | [] => false
    | c :: rest => startsAssetKey (c :: rest) || containsAssetKey rest
  /-- The asset-key pattern matches at the head. -/
  startsAssetKey (l : List Char) : Bool :=
    startsWithCS "\"asset\"".data l &&
      (match (l.drop 7).dropWhile isJsSpace with
       | ':' :: r =>
         match r.dropWhile isJsSpace with
         | '{' :: _ => true
         | _ => false
       | _ => false)

/-- Occurrence of facet, one or more whitespace characters, normal
(case-insensitive, no word boundaries in the source regex). -/
def containsFacetNormal : List Char → Bool
  | [] => false
  | c :: rest => startsFacetNormal (c :: rest) || containsFacetNormal rest
where
  startsFacetNormal (l : List Char) : Bool :=
    startsWithCI "facet".data l &&
      (let r := l.drop 5
       !(r.takeWhile isJsSpace).isEmpty &&
         startsWithCI "normal".data (r.dropWhile isJsSpace))

/-- Heuristic 2: starts with a solid token and contains facet-normal. -/
def ruleStl (tr : List Char) : Bool := startsSolid tr && containsFacetNormal tr

/-- Heuristic 3: starts with a ply token. -/
def rulePly (tr : List Char) : Bool := startsTokenCI "ply".data tr

/-- Heuristic 4: starts with an off or coff token (the optional c is
greedy; on a boundary failure after coff the regex retries plain off at
the start, which cannot match a text that began with c). -/
def ruleOff (tr : List Char) : Bool :=
  if startsWithCI "coff".data tr then
    match tr.drop 4 with
    | [] => true
    | c :: _ => !(isWordChar c)
  else startsTokenCI "off".data tr

/-- One attempt of the OBJ keyword regex at a line start: an optional
comment line (hash, any non-newline characters, newline), then
whitespace (which may span line feeds), then one of the statement
keywords o, g, v, vn, vt, f (case-insensitive), then at least one
whitespace character. -/
def objMatchAt (l : List Char) : Bool :=
  match l with
  | '#' :: rest =>
    (match rest.dropWhile (fun c => !(c = '\n')) with
     | '\n' :: afterNL => objKwHere (afterNL.dropWhile isJsSpace)
     | _ => false)
  | _ => objKwHere (l.dropWhile isJsSpace)
where
  /-- The keyword alternation followed by mandatory whitespace, in the
  alternation order of the source: o, g, v, vn, vt, f. -/
  objKwHere : List Char → Bool
    | c :: rest =>
      ((ciEq c 'o' || ciEq c 'g') && headSpace rest) ||
      (ciEq c 'v' &&
        (headSpace rest ||
         (match rest with
          | d :: rest2 => (ciEq d 'n' || ciEq d 't') && headSpace rest2
          | [] => false))) ||
      (ciEq c 'f' && headSpace rest)
    | [] => false
  /-- At least one whitespace character follows. -/
  headSpace : List Char → Bool
    | c :: _ => isJsSpace c
    | [] => false

/-- Heuristic 5: the OBJ keyword regex matches at some line start (the
multiline flag makes the caret match at the start and after every line
feed). -/
def ruleObj (tr : List Char) : Bool := go true tr
where
  go : Bool → List Char → Bool
    | atStart, [] => atStart && objMatchAt []
    | atStart, c :: rest =>
      (atStart && objMatchAt (c :: rest)) || go (c = '\n') rest

/-- The SCAD keyword list of detectFormatFromText (distinct from the
repairer list: no polyhedron, text, import or extrude entries). -/
def scadDetectKeywords : List (List Char) :=
  ["module".data, "difference".data, "union".data, "intersection".data,
   "translate".data, "rotate".data, "scale".data, "cube".data,
   "sphere".data, "cylinder".data]

/-- Heuristic 6: one of the SCAD keywords occurs with word boundaries on
both sides.  The scan tracks the preceding character for the leading
boundary. -/
def ruleScad (tr : List Char) : Bool := go none tr
where
  go : Option Char → List Char → Bool
    | _, [] => false
    | prev, c :: rest =>
      ((match prev with
        | none => true
        | some p => !(isWordChar p)) &&
        scadDetectKeywords.any fun kw => startsTokenCI kw (c :: rest)) ||
      go (some c) rest

/-- detectFormatFromText: trim, return nothing on an empty result,
otherwise apply the six ordered heuristics, first match wins. -/
def detectFormatFromText (t : String) : Option FormatTag :=
  let tr := jsTrimL t.data
  if tr.isEmpty then none
  else if ruleGltf tr then some .gltf
  else if ruleStl tr then some .stl
  else if rulePly tr then some .ply
  else if ruleOff tr then some .off
  else if ruleObj tr then some .obj
  else if ruleScad tr then some .scad
  else none

/-- ASCII lower-casing of a character list (the toLowerCase call on the
extension). -/
def lowerAsciiList (l : List Char) : List Char := l.map lowerAscii

/-- The filename extension: the last dot-separated segment, lower-cased
(split on dot, pop). -/
def extOf (name : String) : List Char :=
  lowerAsciiList ((splitOnChar '.' name.data).getLastD [])

/-- Extension-to-tag table of detectFormatFromFile. -/
def tagOfExt (ext : List Char) : Option FormatTag :=
  if ext = "stl".data then some .stl
  else if ext = "obj".data then some .obj
  else if ext = "ply".data then some .ply
  else if ext = "off".data then some .off
  else if ext = "gltf".data then some .gltf
  else if ext = "glb".data then some .glb
  else if ext = "3mf".data then some .threeMf
  else if ext = "scad".data then some .scad
  else none

/-- detectFormatFromFile: a known extension wins outright; otherwise the
binary glTF marker in the header yields glb; otherwise the textual
heuristics are applied to the header text. -/
def detectFormatFromFile (name : String) (headerText : String) :
    Option FormatTag :=
  match tagOfExt (extOf name) with
  | some tag => some tag
  | none =>
    if containsCS "glTF".data headerText.data then some .glb
    else detectFormatFromText headerText

/-- The header handleFile decodes before file-format detection: the
first 512 bytes of the file (modelled at character granularity). -/
def headerOf (content : String) : String := String.mk (content.data.take 512)

/-- File-path detection as performed by handleFile: the filename plus
the truncated header. -/
def fileDetect (name content : String) : Option FormatTag :=
  detectFormatFromFile name (headerOf content)

/-! ## JavaScript Number model, as used by parseOff (src/app.js lines
413-488) to parse whitespace-separated tokens -/

/-- A JavaScript number restricted to what Number(token) can produce
here: not-a-number, a signed infinity, or a finite value modelled as a
rational. -/
inductive JsNum where
  | nan
  | inf (pos : Bool)
  | fin (q : ℚ)
deriving DecidableEq, Repr

/-- Number.isFinite. -/
def JsNum.isFiniteJs : JsNum → Bool
  | .fin _ => true
  | _ => false

/-- Digit value of an ASCII digit. -/
def digitVal (c : Char) : ℕ := c.toNat - 48

def isDigit (c : Char) : Bool := 48 ≤ c.toNat && c.toNat ≤ 57

def isHexDigit (c : Char) : Bool :=
  isDigit c || (97 ≤ c.toNat && c.toNat ≤ 102) || (65 ≤ c.toNat && c.toNat ≤ 70)

def hexVal (c : Char) : ℕ :=
  if isDigit c then digitVal c
  else if 97 ≤ c.toNat then c.toNat - 87
  else c.toNat - 55

/-- Value of a digit list in a given base. -/
def digitsVal (base : ℕ) (val : Char → ℕ) (l : List Char) : ℕ :=
  l.foldl (fun acc c => acc * base + val c) 0

/-- Decimal literal parser: optional integer part, optional fraction,
optional exponent; at least one digit must appear in the mantissa and
the whole token must be consumed.  The value is built exactly as a
rational via mkRat (floats are modelled exactly). -/
def parseDecToken (l : List Char) : Option ℚ :=
  let intPart := l.takeWhile isDigit
  let r1 := l.dropWhile isDigit
  let fracPart :=
    match r1 with
    | '.' :: tail => tail.takeWhile isDigit
    | _ => []
  let r2 :=
    match r1 with
    | '.' :: tail => tail.dropWhile isDigit
    | _ => r1
  let hasDot := match r1 with | '.' :: _ => true | _ => false
  if intPart.isEmpty && fracPart.isEmpty then none
  else
    let mantNum := digitsVal 10 digitVal (intPart ++ fracPart)
    let scale := fracPart.length
    match r2 with
    | [] =>
      if hasDot || r1.isEmpty then some (mkRat mantNum (10 ^ scale)) else none
    | e :: tail =>
      if e = 'e' || e = 'E' then
        let negExp := match tail with | '-' :: _ => true | _ => false
        let ds :=
          match tail with
          | '+' :: t => t
          | '-' :: t => t
          | t => t
        if ds.isEmpty || !(ds.all isDigit) then none
        else
          let ex := digitsVal 10 digitVal ds
          if negExp then some (mkRat mantNum (10 ^ (scale + ex)))
          else some (mkRat (mantNum * 10 ^ ex) (10 ^ scale))
      else none

/-- Number(token) for the nonempty whitespace-free tokens produced by
splitting a trimmed line: hexadecimal, binary and octal literals
(unsigned only), optionally signed Infinity and decimal literals, and
not-a-number for everything else.  The empty token (never produced
here) converts to zero. -/
def jsParseNum (l : List Char) : JsNum :=
  match l with
  | [] => .fin 0
  | _ =>
    if startsWithCS "0x".data l || startsWithCS "0X".data l then
      let ds := l.drop 2
      if !ds.isEmpty && ds.all isHexDigit then
        .fin (mkRat (digitsVal 16 hexVal ds) 1)
      else .nan
    else if startsWithCS "0b".data l || startsWithCS "0B".data l then
      let ds := l.drop 2
      if !ds.isEmpty && ds.all (fun c => c = '0' || c = '1') then
        .fin (mkRat (digitsVal 2 digitVal ds) 1)
      else .nan
    else if startsWithCS "0o".data l || startsWithCS "0O".data l then
      let ds := l.drop 2
      if !ds.isEmpty && ds.all (fun c => 48 ≤ c.toNat && c.toNat ≤ 55) then
        .fin (mkRat (digitsVal 8 digitVal ds) 1)
      else .nan
    else
      let neg := match l with | '-' :: _ => true | _ => false
      let body :=
        match l with
        | '+' :: t => t
        | '-' :: t => t
        | t => t
      if body = "Infinity".data then .inf !neg
      else
        match parseDecToken body with
        | some q => .fin (if neg then -q else q)
        | none => .nan

/-! ## OFF parser (parseOff in src/app.js lines 413-488) -/

/-- The geometry assembled by parseOff: the flat vertex coordinate array
and the flat triangle index array, both holding JavaScript numbers. -/
structure OffGeom where
  vertices : List JsNum
  indices : List JsNum
deriving DecidableEq, Repr

deriving instance DecidableEq for Except

/-- Loop iteration count of a JavaScript for loop running an integer
counter i from zero while i is less than a finite float bound. -/
def iterCount (q : ℚ) : ℕ := if q ≤ 0 then 0 else q.ceil.toNat

/-- Read the vertex lines: one line per iteration, failing when the
lines run out, and failing when a line has fewer than three tokens;
pushes the first three parsed tokens of each line. -/
def readVertexLines : ℕ → List (List Char) →
    Except String (List JsNum × List (List Char))
  | 0, lines => .ok ([], lines)
  | _ + 1, [] => .error "OFF vertex data is incomplete."
  | n + 1, line :: rest =>
    let parts := (splitWS line).map jsParseNum
    if parts.length < 3 then .error "OFF vertex entry is invalid."
    else
      match readVertexLines n rest with
      | .error e => .error e
      | .ok (vs, remaining) => .ok (parts.take 3 ++ vs, remaining)

/-- Fan triangulation inner loop: for each consecutive pair of the
remaining face indices, emit the first index and the pair. -/
def fanGo (f0 : JsNum) : List JsNum → List JsNum
  | a :: b :: r => f0 :: a :: b :: fanGo f0 (b :: r)
  | _ => []

/-- Fan triangulation of a face index list from its first vertex. -/
def fanTriangles : List JsNum → List JsNum
  | [] => []
  | f0 :: rest => fanGo f0 rest

/-- The triangle indices contributed by one face line: lines with fewer
than four tokens are skipped, as are lines whose declared vertex count
is not finite or is below three; otherwise the declared number of
indices is sliced off after the count and fan-triangulated (the slice
end index 1 + count is truncated toward zero, which for the reachable
counts of at least three equals one plus the floor). -/
def faceContrib (line : List Char) : List JsNum :=
  let parts := (splitWS line).map jsParseNum
  if parts.length < 4 then []
  else
    match parts with
    | [] => []
    | fv :: rest =>
      match fv with
      | .fin q =>
        if q < 3 then []
        else fanTriangles (rest.take ((1 + q.floor).toNat - 1))
      | _ => []

/-- Read the face lines: one line per iteration, failing when the lines
run out, collecting each line's triangle contribution. -/
def readFaceLines : ℕ → List (List Char) → Except String (List JsNum)
  | 0, _ => .ok []
  | _ + 1, [] => .error "OFF face data is incomplete."
  | n + 1, line :: rest =>
    match readFaceLines n rest with
    | .error e => .error e
    | .ok idx => .ok (faceContrib line ++ idx)

/-- parseOff: normalize line endings, split, trim, drop blank and
comment lines; validate the OFF or COFF header; take the vertex and
face counts from the header remainder or the following line; fail when
they are missing or not finite; then read the vertex and face lines. -/
def parseOff (text : String) : Except String OffGeom :=
  let lines :=
    ((splitOnNL (normCR text.data)).map jsTrimL).filter fun l =>
      !l.isEmpty && !(l.head? == some '#')
  match lines with
  | [] => .error "OFF file is empty."
  | header :: rest =>
    if !(startsWithCI "coff".data header || startsWithCI "off".data header)
    then .error "Invalid OFF header."
    else
      let afterKw :=
        if startsWithCI "coff".data header then header.drop 4
        else header.drop 3
      let inline := jsTrimL (afterKw.dropWhile isJsSpace)
      let (countsLine?, body) :=
        if inline.isEmpty then
          match rest with
          | [] => (none, ([] : List (List Char)))
          | c :: r => (some c, r)
        else (some inline, rest)
      match countsLine? with
      | none => .error "OFF vertex count missing."
      | some countsLine =>
        let counts := ((splitWS countsLine).take 2).map jsParseNum
        match counts with
        | [.fin vq, .fin fq] =>
          match readVertexLines (iterCount vq) body with
          | .error e => .error e
          | .ok (vs, afterVerts) =>
            match readFaceLines (iterCount fq) afterVerts with
            | .error e => .error e
            | .ok idx => .ok ⟨vs, idx⟩
        | _ => .error "OFF counts are invalid."

/-! ## Geometry stats (computeObjectStats in src/app.js lines 189-215)
and validity (validateObject in lines 305-317) -/

/-- The position attribute count of a geometry built from a flat
coordinate array with item size three: the array length divided by
three. -/
def positionCount (g : OffGeom) : ℕ := g.vertices.length / 3

/-- The triangle statistic of computeObjectStats over the meshes of an
object: for each mesh it adds the position count divided by three, a
float division that is fractional when the count is not a multiple of
three. -/
def computeStatsTriangles (counts : List ℕ) : ℚ :=
  (counts.map fun c => (c : ℚ) / 3).sum

/-- The triangle-count validity test of validateObject on the triangle
statistic: the model fails validation when the statistic is not
positive (the non-finite test of the source cannot fire on a rational). -/
def validTriangleStat (t : ℚ) : Bool := 0 < t

/-! ## Load and repair orchestration (loadInput in src/app.js lines
517-552, applyRepair in lines 643-662) -/

/-- Observable outcome of one loadInput call: whether the parser ran,
whether a repair prompt was raised, and whether a model was installed. -/
structure LoadAttempt where
  parserCalled : Bool
  promptRaised : Bool
  noFixReported : Bool
  loadedOk : Bool
deriving DecidableEq, Repr

/-- loadInput with a textual payload: parse; on a parse exception clear
the model and raise the repair prompt only when repair is allowed; on a
validation failure likewise; otherwise finalize the load. -/
def loadInputModel {α : Type} (parse : String → Except String α)
    (validate : α → Option String) (allowRepair : Bool) (data : String) :
    LoadAttempt :=
  match parse data with
  | .error _ => ⟨true, allowRepair, false, false⟩
  | .ok obj =>
    match validate obj with
    | some _ => ⟨true, allowRepair, false, false⟩
    | none => ⟨true, false, false, true⟩

/-- applyRepair after the user confirms the STL repair offer: run the
repairer on the pending text; when the output is falsy or textually
identical to the input, report that no fixable issues were found and do
not re-enter parsing; otherwise re-enter loadInput on the repaired text
with repair disabled. -/
def applyRepairModel {α : Type} (parse : String → Except String α)
    (validate : α → Option String) (pending : String) : LoadAttempt :=
  let repaired := repairStlText pending
  if repaired = "" ∨ repaired = pending then ⟨false, false, true, false⟩
  else loadInputModel parse validate false repaired

/-! ## Fixtures and claim-level predicates -/

/-- The OFF fixture of the specification. -/
def offFixture : String :=
  "OFF\n4 2 0\n0 0 0\n1 0 0\n1 1 0\n0 1 0\n3 0 1 2\n3 0 2 3"

/-- A 512-character junk prefix carrying no detection evidence. -/
def junk512 : List Char := List.replicate 512 'x'

/-- Content whose only detection evidence (a SCAD keyword) lies beyond
the first 512 characters. -/
def beyond512Scad : String := String.mk (junk512 ++ " cube".data)

/-- A well-formedness predicate for the lines the STL cleaning step
produces: nonempty, trimmed, and free of non-printables, commas,
carriage returns and line feeds. -/
def goodLine (l : List Char) : Prop :=
  l ≠ [] ∧ jsTrimL l = l ∧
    ∀ c ∈ l, keepPrintable c = true ∧ c ≠ ',' ∧ c ≠ '\r' ∧ c ≠ '\n'

/-- The ordering property claimed for the repaired STL text, read at
line granularity: some line carries the opening solid token, some line
carries an endsolid token, and every line carrying an endsolid token is
strictly preceded by a line carrying the opening solid token. -/
def stlSolidBeforeEndsolidB (s : String) : Bool :=
  let ls := splitOnNL (repairStlL s.data)
  (ls.any fun l => startsSolid l) &&
  (ls.any fun l => containsEndsolid l) &&
  ((List.range ls.length).all fun j =>
     !containsEndsolid (ls.getD j []) ||
       ((List.range j).any fun i => startsSolid (ls.getD i [])))

/-! ## Splitting and joining lemmas -/

theorem splitOnChar_ne_nil (sep : Char) (l : List Char) :
    splitOnChar sep l ≠ [] := by
  induction l with
  | nil => simp [splitOnChar]
  | cons c rest ih =>
    by_cases hc : c = sep
    · simp [splitOnChar, hc]
    · simp only [splitOnChar, if_neg hc]
      rcases h : splitOnChar sep rest with _ | ⟨x, xs⟩ <;> simp

theorem mem_of_mem_splitOnChar {sep : Char} {l x : List Char} {c : Char}
    (hx : x ∈ splitOnChar sep l) (hc : c ∈ x) : c ∈ l ∧ c ≠ sep := by
  induction l generalizing x with
  | nil =>
    simp only [splitOnChar, List.mem_singleton] at hx
    subst hx; cases hc
  | cons d rest ih =>
    by_cases hd : d = sep
    · simp only [splitOnChar, if_pos hd, List.mem_cons] at hx
      rcases hx with rfl | hx
      · cases hc
      · rcases ih hx hc with ⟨h1, h2⟩
        exact ⟨List.mem_cons_of_mem d h1, h2⟩
    · simp only [splitOnChar, if_neg hd] at hx
      rcases h : splitOnChar sep rest with _ | ⟨y, ys⟩
      · exact absurd h (splitOnChar_ne_nil sep rest)
      · rw [h] at hx
        rcases List.mem_cons.mp hx with rfl | hx2
        · rcases List.mem_cons.mp hc with rfl | hcy
          · exact ⟨List.mem_cons_self _ _, hd⟩
          · have hy : y ∈ splitOnChar sep rest := by rw [h]; exact List.mem_cons_self _ _
            rcases ih hy hcy with ⟨h1, h2⟩
            exact ⟨List.mem_cons_of_mem d h1, h2⟩
        · have hxs : x ∈ splitOnChar sep rest := by
            rw [h]; exact List.mem_cons_of_mem y hx2
          rcases ih hxs hc with ⟨h1, h2⟩
          exact ⟨List.mem_cons_of_mem d h1, h2⟩

theorem splitOnChar_of_not_mem {sep : Char} {l : List Char} (h : sep ∉ l) :
    splitOnChar sep l = [l] := by
  induction l with
  | nil => rfl
  | cons c rest ih =>
    have hc : c ≠ sep := fun hcs => h (hcs ▸ List.mem_cons_self c rest)
    have hr : sep ∉ rest := fun hs => h (List.mem_cons_of_mem c hs)
    simp only [splitOnChar, if_neg hc, ih hr]

theorem splitOnChar_append {sep : Char} {a b : List Char} (h : sep ∉ a) :
    splitOnChar sep (a ++ sep :: b) = a :: splitOnChar sep b := by
  induction a with
  | nil => simp [splitOnChar]
  | cons c a2 ih =>
    have hc : c ≠ sep := fun hcs => h (hcs ▸ List.mem_cons_self c a2)
    have ha : sep ∉ a2 := fun hs => h (List.mem_cons_of_mem c hs)
    simp only [List.cons_append, splitOnChar, if_neg hc, List.append_eq]
    rw [ih ha]

theorem joinNL_cons {a : List Char} {ls : List (List Char)} (h : ls ≠ []) :
    joinNL (a :: ls) = a ++ '\n' :: joinNL ls := by
  cases ls with
  | nil => exact absurd rfl h
  | cons b t => rfl

theorem splitOnNL_joinNL {ls : List (List Char)} (hne : ls ≠ [])
    (hnl : ∀ x ∈ ls, '\n' ∉ x) : splitOnNL (joinNL ls) = ls := by
  induction ls with
  | nil => exact absurd rfl hne
  | cons a t ih =>
    cases t with
    | nil =>
      show splitOnNL (joinNL [a]) = [a]
      have : joinNL [a] = a := rfl
      rw [this]
      exact splitOnChar_of_not_mem (hnl a (List.mem_cons_self a []))
    | cons b t2 =>
      rw [joinNL_cons (by simp)]
      show splitOnChar '\n' (a ++ '\n' :: joinNL (b :: t2)) = _
      rw [splitOnChar_append (hnl a (List.mem_cons_self _ _))]
      have := ih (by simp) fun x hx => hnl x (List.mem_cons_of_mem a hx)
      rw [show splitOnChar '\n' (joinNL (b :: t2)) = splitOnNL (joinNL (b :: t2)) from rfl,
        this]

theorem joinNL_append_single {ls : List (List Char)} {x : List Char}
    (h : ls ≠ []) : joinNL (ls ++ [x]) = joinNL ls ++ '\n' :: x := by
  induction ls with
  | nil => exact absurd rfl h
  | cons a t ih =>
    cases t with
    | nil => rfl
    | cons b t2 =>
      rw [List.cons_append, joinNL_cons (by simp), joinNL_cons (by simp),
        ih (by simp)]
      simp

theorem mem_joinNL {c : Char} {ls : List (List Char)} (hc : c ∈ joinNL ls) :
    c = '\n' ∨ ∃ x ∈ ls, c ∈ x := by
  induction ls with
  | nil => cases hc
  | cons a t ih =>
    cases t with
    | nil =>
      right; exact ⟨a, List.mem_cons_self _ _, hc⟩
    | cons b t2 =>
      rw [joinNL_cons (by simp)] at hc
      rcases List.mem_append.mp hc with ha | htail
      · right; exact ⟨a, List.mem_cons_self _ _, ha⟩
      · rcases List.mem_cons.mp htail with rfl | hj
        · left; rfl
        · rcases ih hj with h1 | ⟨x, hx, hcx⟩
          · left; exact h1
          · right; exact ⟨x, List.mem_cons_of_mem a hx, hcx⟩

theorem joinNL_ne_nil {ls : List (List Char)} (hne : ls ≠ [])
    (hx : ∀ x ∈ ls, x ≠ []) : joinNL ls ≠ [] := by
  cases ls with
  | nil => exact absurd rfl hne
  | cons a t =>
    cases t with
    | nil => exact hx a (List.mem_cons_self _ _)
    | cons b t2 =>
      rw [joinNL_cons (by simp)]
      intro hcontra
      rcases List.append_eq_nil.mp hcontra with ⟨_, h2⟩
      cases h2

/-! ## Cleaning-step lemmas -/

theorem mem_normCR {c : Char} : ∀ {l : List Char}, c ∈ normCR l →
    c = '\n' ∨ (c ∈ l ∧ c ≠ '\r') := by
  intro l
  induction l using normCR.induct with
  | case1 => intro h; rw [normCR.eq_1] at h; cases h
  | case2 rest ih =>
    intro h
    rw [normCR.eq_2] at h
    rcases List.mem_cons.mp h with rfl | h2
    · exact Or.inl rfl
    · rcases ih h2 with h3 | ⟨h4, h5⟩
      · exact Or.inl h3
      · exact Or.inr ⟨by simp [h4], h5⟩
  | case3 rest hne ih =>
    intro h
    rw [normCR.eq_3 rest hne] at h
    rcases List.mem_cons.mp h with rfl | h2
    · exact Or.inl rfl
    · rcases ih h2 with h3 | ⟨h4, h5⟩
      · exact Or.inl h3
      · exact Or.inr ⟨List.mem_cons_of_mem _ h4, h5⟩
  | case4 ch rest hne1 hne2 ih =>
    intro h
    rw [normCR.eq_4 ch rest hne1 hne2] at h
    rcases List.mem_cons.mp h with rfl | h2
    · exact Or.inr ⟨List.mem_cons_self _ _, fun hc => hne2 hc⟩
    · rcases ih h2 with h3 | ⟨h4, h5⟩
      · exact Or.inl h3
      · exact Or.inr ⟨List.mem_cons_of_mem ch h4, h5⟩

theorem normCR_eq_self : ∀ {l : List Char}, '\r' ∉ l → normCR l = l := by
  intro l
  induction l using normCR.induct with
  | case1 => intro h; exact normCR.eq_1
  | case2 rest ih => intro h; exact absurd (List.mem_cons_self '\r' _) h
  | case3 rest hne ih => intro h; exact absurd (List.mem_cons_self '\r' rest) h
  | case4 ch rest hne1 hne2 ih =>
    intro h
    rw [normCR.eq_4 ch rest hne1 hne2,
      ih (fun hm => h (List.mem_cons_of_mem ch hm))]

theorem normCR_no_cr {c : Char} {l : List Char} (h : c ∈ normCR l) :
    c ≠ '\r' := by
  rcases mem_normCR h with rfl | ⟨_, h2⟩
  · decide
  · exact h2

theorem mem_decomma {c : Char} {l : List Char} (h : c ∈ decomma l) :
    c ≠ ',' ∧ (c = ' ' ∨ c ∈ l) := by
  rcases List.mem_map.mp h with ⟨a, ha, rfl⟩
  by_cases hc : a = ','
  · rw [if_pos hc]
    exact ⟨by decide, Or.inl rfl⟩
  · rw [if_neg hc]
    exact ⟨hc, Or.inr ha⟩

theorem decomma_eq_self {l : List Char} (h : ',' ∉ l) : decomma l = l := by
  induction l with
  | nil => rfl
  | cons a t ih =>
    have ha : a ≠ ',' := fun hc => h (hc ▸ List.mem_cons_self a t)
    have ht : ',' ∉ t := fun hm => h (List.mem_cons_of_mem a hm)
    simp only [decomma, List.map_cons, if_neg ha]
    show a :: decomma t = a :: t
    rw [ih ht]

theorem mem_stripNP {c : Char} {l : List Char} (h : c ∈ stripNP l) :
    c ∈ l ∧ keepPrintable c = true :=
  ⟨List.mem_of_mem_filter h, List.of_mem_filter h⟩

theorem stripNP_eq_self {l : List Char} (h : ∀ c ∈ l, keepPrintable c = true) :
    stripNP l = l := List.filter_eq_self.mpr h

theorem head?_dropWhile_false {p : Char → Bool} {l : List Char} {c : Char}
    (h : (l.dropWhile p).head? = some c) : p c = false := by
  have hmatch := List.head?_dropWhile_not p l
  rw [h] at hmatch
  exact hmatch

theorem dropWhile_eq_self_of_head? {p : Char → Bool} {l : List Char}
    (h : ∀ c, l.head? = some c → p c = false) : l.dropWhile p = l := by
  cases l with
  | nil => rfl
  | cons c rest =>
    exact List.dropWhile_cons_of_neg (by simp [h c rfl])

theorem dropWhile_stable {p : Char → Bool} {l : List Char} :
    (l.dropWhile p).dropWhile p = l.dropWhile p := by
  apply dropWhile_eq_self_of_head?
  intro c hc
  exact head?_dropWhile_false hc

theorem mem_jsTrim {c : Char} {l : List Char} (h : c ∈ jsTrimL l) : c ∈ l := by
  unfold jsTrimL at h
  rw [List.mem_reverse] at h
  have h2 := List.dropWhile_subset isJsSpace h
  rw [List.mem_reverse] at h2
  exact List.dropWhile_subset isJsSpace h2

theorem jsTrim_idem {l : List Char} : jsTrimL (jsTrimL l) = jsTrimL l := by
  unfold jsTrimL
  set a := l.dropWhile isJsSpace with ha
  set b := a.reverse.dropWhile isJsSpace with hb
  have hstep1 : b.reverse.dropWhile isJsSpace = b.reverse := by
    apply dropWhile_eq_self_of_head?
    intro c hc
    rw [List.head?_reverse] at hc
    have hlast : a.reverse.getLast? = some c := by
      rcases hsuf : (a.reverse.takeWhile isJsSpace) with _ | ⟨d, ds⟩
      · have : a.reverse = b := by
          conv_lhs => rw [← List.takeWhile_append_dropWhile isJsSpace a.reverse]
          rw [hsuf, List.nil_append, hb]
        rw [this]; exact hc
      · have hsplit : a.reverse = (d :: ds) ++ b := by
          conv_lhs => rw [← List.takeWhile_append_dropWhile isJsSpace a.reverse]
          rw [hsuf, hb]
        rw [hsplit, List.getLast?_append]
        have hbne : b ≠ [] := by
          intro hbnil
          rw [hbnil] at hc
          cases hc
        rw [List.getLast?_eq_head?_reverse] at hc ⊢
        simp only [hc, Option.or_some]
    rw [List.getLast?_reverse] at hlast
    exact head?_dropWhile_false (ha ▸ hlast)
  rw [hstep1, List.reverse_reverse, hb, dropWhile_stable]

/-! ## Token-matcher lemmas -/

theorem startsWithCI_length {p l : List Char} (h : startsWithCI p l = true) :
    p.length ≤ l.length := by
  induction p generalizing l with
  | nil => simp
  | cons q ps ih =>
    cases l with
    | nil => simp [startsWithCI] at h
    | cons c cs =>
      simp only [startsWithCI, Bool.and_eq_true] at h
      simpa using ih h.2

theorem startsWithCI_append_mono {p l d : List Char}
    (h : startsWithCI p l = true) : startsWithCI p (l ++ d) = true := by
  induction p generalizing l with
  | nil => simp [startsWithCI]
  | cons q ps ih =>
    cases l with
    | nil => simp [startsWithCI] at h
    | cons c cs =>
      simp only [startsWithCI, Bool.and_eq_true] at h ⊢
      exact ⟨h.1, ih h.2⟩

theorem startsWithCI_of_append {p l d : List Char}
    (h : startsWithCI p (l ++ d) = true) (hlen : p.length ≤ l.length) :
    startsWithCI p l = true := by
  induction p generalizing l with
  | nil => simp [startsWithCI]
  | cons q ps ih =>
    cases l with
    | nil => simp at hlen
    | cons c cs =>
      simp only [List.cons_append, startsWithCI, Bool.and_eq_true] at h ⊢
      exact ⟨h.1, ih h.2 (by simpa using hlen)⟩

theorem startsTokenCI_append {p l d : List Char}
    (h : startsTokenCI p l = true)
    (hd : d = [] ∨ ∃ c rest, d = c :: rest ∧ isWordChar c = false) :
    startsTokenCI p (l ++ d) = true := by
  simp only [startsTokenCI, Bool.and_eq_true] at h ⊢
  obtain ⟨h1, h2⟩ := h
  refine ⟨startsWithCI_append_mono h1, ?_⟩
  rw [List.drop_append_of_le_length (startsWithCI_length h1)]
  rcases hdrop : l.drop p.length with _ | ⟨c, cs⟩
  · rw [hdrop] at h2
    simp only [List.nil_append]
    rcases hd with rfl | ⟨c, rest, rfl, hw⟩
    · exact h2
    · simpa using hw
  · rw [hdrop] at h2
    simpa using h2

theorem contains_of_startsTokenCI {p l : List Char}
    (h : startsTokenCI p l = true) : containsTokenCI p l = true := by
  cases l with
  | nil => exact h
  | cons c cs => simp [containsTokenCI, h]

theorem containsTokenCI_append_left {p t : List Char} (s : List Char)
    (h : containsTokenCI p t = true) : containsTokenCI p (s ++ t) = true := by
  induction s with
  | nil => exact h
  | cons c s2 ih => simp [containsTokenCI, ih]

theorem containsTokenCI_append {p t d : List Char}
    (h : containsTokenCI p t = true)
    (hd : d = [] ∨ ∃ c rest, d = c :: rest ∧ isWordChar c = false) :
    containsTokenCI p (t ++ d) = true := by
  induction t with
  | nil =>
    exact contains_of_startsTokenCI (@startsTokenCI_append p [] d h hd)
  | cons c t2 ih =>
    simp only [containsTokenCI, Bool.or_eq_true] at h
    rcases h with h1 | h2
    · have := startsTokenCI_append h1 hd
      simp only [List.cons_append, containsTokenCI, Bool.or_eq_true]
      exact Or.inl (by simpa using this)
    · simp only [List.cons_append, containsTokenCI, Bool.or_eq_true]
      exact Or.inr (ih h2)

theorem startsTokenCI_cons {q c : Char} {ps cs : List Char} :
    startsTokenCI (q :: ps) (c :: cs) = (ciEq q c && startsTokenCI ps cs) := by
  simp only [startsTokenCI, startsWithCI, List.length_cons, List.drop_succ_cons]
  cases hq : ciEq q c <;> simp

theorem startsTokenCI_takeWhileNL {p : List Char}
    (hp : ∀ c ∈ p, ciEq c '\n' = false) :
    ∀ {t : List Char}, startsTokenCI p t = true →
      startsTokenCI p (t.takeWhile fun x => !(x == '\n')) = true := by
  induction p with
  | nil =>
    intro t h
    cases t with
    | nil => exact h
    | cons c cs =>
      by_cases hc : c = '\n'
      · subst hc; simp [startsTokenCI, startsWithCI, List.takeWhile_cons]
      · have hkeep : ((c :: cs).takeWhile fun x => !(x == '\n')) =
            c :: (cs.takeWhile fun x => !(x == '\n')) := by
          simp [List.takeWhile_cons, hc]
        rw [hkeep]
        simp only [startsTokenCI, startsWithCI, List.length_nil,
          List.drop_zero, Bool.true_and] at h ⊢
        exact h
  | cons q ps ih =>
    intro t h
    cases t with
    | nil => simp [startsTokenCI, startsWithCI] at h
    | cons c cs =>
      rw [startsTokenCI_cons] at h
      rcases Bool.and_eq_true_iff.mp h with ⟨hq, hrest⟩
      have hc : ¬(c = '\n') := by
        intro hcn
        subst hcn
        exact absurd hq (by simp [hp q (List.mem_cons_self _ _)])
      have hkeep : ((c :: cs).takeWhile fun x => !(x == '\n')) =
          c :: (cs.takeWhile fun x => !(x == '\n')) := by
        simp [List.takeWhile_cons, hc]
      rw [hkeep, startsTokenCI_cons]
      exact Bool.and_eq_true_iff.mpr
        ⟨hq, ih (fun c hcp => hp c (List.mem_cons_of_mem q hcp)) hrest⟩

theorem startsWithCI_append_nl_length {p : List Char} {b : List Char}
    (hp : ∀ c ∈ p, ciEq c '\n' = false) :
    ∀ {a : List Char}, startsWithCI p (a ++ '\n' :: b) = true →
      p.length ≤ a.length := by
  induction p with
  | nil => simp
  | cons q ps ih =>
    intro a h
    cases a with
    | nil =>
      simp only [List.nil_append, startsWithCI, Bool.and_eq_true_iff] at h
      exact absurd h.1 (by simp [hp q (List.mem_cons_self _ _)])
    | cons c cs =>
      simp only [List.cons_append, startsWithCI, Bool.and_eq_true_iff] at h
      have := ih (fun d hd => hp d (List.mem_cons_of_mem q hd)) h.2
      simpa using Nat.succ_le_succ this

theorem startsTokenCI_of_append_nl {p a b : List Char}
    (hp : ∀ c ∈ p, ciEq c '\n' = false)
    (h : startsTokenCI p (a ++ '\n' :: b) = true) :
    startsTokenCI p a = true := by
  have hlen : p.length ≤ a.length :=
    startsWithCI_append_nl_length hp (Bool.and_eq_true_iff.mp h).1
  obtain ⟨h1, h2⟩ := Bool.and_eq_true_iff.mp h
  refine Bool.and_eq_true_iff.mpr ⟨startsWithCI_of_append h1 hlen, ?_⟩
  rw [List.drop_append_of_le_length hlen] at h2
  rcases hdrop : a.drop p.length with _ | ⟨c, cs⟩
  · simp
  · rw [hdrop] at h2
    simpa using h2

theorem containsTokenCI_append_nl_split {q : Char} {ps a b : List Char}
    (hp : ∀ c ∈ (q :: ps), ciEq c '\n' = false)
    (h : containsTokenCI (q :: ps) (a ++ '\n' :: b) = true) :
    containsTokenCI (q :: ps) a = true ∨ containsTokenCI (q :: ps) b = true := by
  induction a with
  | nil =>
    simp only [List.nil_append, containsTokenCI, Bool.or_eq_true] at h
    rcases h with h1 | h2
    · rw [startsTokenCI_cons] at h1
      exact absurd (Bool.and_eq_true_iff.mp h1).1
        (by simp [hp q (List.mem_cons_self _ _)])
    · exact Or.inr h2
  | cons c a2 ih =>
    simp only [List.cons_append, containsTokenCI, Bool.or_eq_true] at h
    rcases h with h1 | h2
    · have := @startsTokenCI_of_append_nl (q :: ps) (c :: a2) b hp h1
      exact Or.inl (contains_of_startsTokenCI this)
    · rcases ih h2 with h3 | h4
      · exact Or.inl (by simp [containsTokenCI, h3])
      · exact Or.inr h4

theorem containsTokenCI_joinNL {q : Char} {ps : List Char}
    (hp : ∀ c ∈ (q :: ps), ciEq c '\n' = false) :
    ∀ {ls : List (List Char)}, containsTokenCI (q :: ps) (joinNL ls) = true →
      ∃ l ∈ ls, containsTokenCI (q :: ps) l = true := by
  intro ls
  induction ls with
  | nil =>
    intro h
    simp [containsTokenCI, startsTokenCI, startsWithCI] at h
  | cons a t ih =>
    intro h
    cases t with
    | nil => exact ⟨a, List.mem_cons_self _ _, h⟩
    | cons b t2 =>
      rw [joinNL_cons (by simp)] at h
      rcases containsTokenCI_append_nl_split hp h with h1 | h2
      · exact ⟨a, List.mem_cons_self _ _, h1⟩
      · rcases ih h2 with ⟨l, hl, hcl⟩
        exact ⟨l, List.mem_cons_of_mem a hl, hcl⟩

/-! ## STL repairer structure lemmas -/

theorem stlLines_good {s : List Char} : ∀ l ∈ stlLines s, goodLine l := by
  intro l hl
  unfold stlLines at hl
  rcases List.mem_filter.mp hl with ⟨hmem, hne⟩
  rcases List.mem_map.mp hmem with ⟨l0, hl0, rfl⟩
  refine ⟨by simpa using hne, jsTrim_idem, ?_⟩
  intro c hc
  have hc0 : c ∈ l0 := mem_jsTrim hc
  rcases mem_of_mem_splitOnChar hl0 hc0 with ⟨hin, hnl⟩
  rcases mem_stripNP hin with ⟨hin2, hkeep⟩
  rcases mem_decomma hin2 with ⟨hcomma, hsp⟩
  have hcr : c ≠ '\r' := by
    rcases hsp with rfl | hmem2
    · decide
    · exact normCR_no_cr hmem2
  exact ⟨hkeep, hcomma, hcr, hnl⟩

theorem stlLines_of_good {lsAll : List (List Char)} (hne : lsAll ≠ [])
    (hgood : ∀ l ∈ lsAll, goodLine l) : stlLines (joinNL lsAll) = lsAll := by
  have hnonl : ∀ x ∈ lsAll, '\n' ∉ x := fun x hx hc =>
    ((hgood x hx).2.2 _ hc).2.2.2 rfl
  have hchars : ∀ c ∈ joinNL lsAll,
      keepPrintable c = true ∧ c ≠ ',' ∧ c ≠ '\r' := by
    intro c hc
    rcases mem_joinNL hc with rfl | ⟨x, hx, hcx⟩
    · exact ⟨by decide, by decide, by decide⟩
    · have := (hgood x hx).2.2 c hcx
      exact ⟨this.1, this.2.1, this.2.2.1⟩
  unfold stlLines
  rw [normCR_eq_self (fun hm => (hchars _ hm).2.2 rfl),
      decomma_eq_self (fun hm => (hchars _ hm).2.1 rfl),
      stripNP_eq_self (fun c hc => (hchars c hc).1),
      show splitOnNL (joinNL lsAll) = lsAll from splitOnNL_joinNL hne hnonl]
  have hmap : lsAll.map jsTrimL = lsAll := by
    conv_rhs => rw [← List.map_id lsAll]
    exact List.map_congr_left fun l hl => (hgood l hl).2.1
  rw [hmap]
  exact List.filter_eq_self.mpr fun l hl => by simpa using (hgood l hl).1

theorem stlClean_of_good {lsAll : List (List Char)} (hne : lsAll ≠ [])
    (hgood : ∀ l ∈ lsAll, goodLine l) :
    stlCleanL (joinNL lsAll) = joinNL lsAll := by
  unfold stlCleanL
  rw [stlLines_of_good hne hgood]

theorem goodLine_solidModel : goodLine "solid model".data := by
  refine ⟨by decide, by decide, ?_⟩
  decide

theorem goodLine_endsolidModel : goodLine "endsolid model".data := by
  refine ⟨by decide, by decide, ?_⟩
  decide

theorem solidModelNL_join {ls : List (List Char)} (hne : ls ≠ []) :
    solidModelNL ++ joinNL ls = joinNL ("solid model".data :: ls) := by
  rw [joinNL_cons hne,
    show solidModelNL = "solid model".data ++ ['\n'] by decide,
    List.append_assoc, List.singleton_append]

theorem endsolid_boundary_arg :
    endsolidModelNL = [] ∨
      ∃ c rest, endsolidModelNL = c :: rest ∧ isWordChar c = false := by
  right
  exact ⟨'\n', "endsolid model".data, by decide, by decide⟩

theorem stlWithSolid_join (x : List Char) (hx : stlLines x ≠ []) :
    ∃ lsW, lsW ≠ [] ∧ (∀ l ∈ lsW, goodLine l) ∧ stlWithSolid x = joinNL lsW := by
  unfold stlWithSolid
  by_cases hs : startsSolid (stlCleanL x) = true
  · rw [if_pos hs]
    exact ⟨stlLines x, hx, stlLines_good, rfl⟩
  · rw [if_neg hs]
    refine ⟨"solid model".data :: stlLines x, by simp, ?_, solidModelNL_join hx⟩
    intro l hl
    rcases List.mem_cons.mp hl with rfl | h
    · exact goodLine_solidModel
    · exact stlLines_good l h

theorem repairStl_join (x : List Char) (hx : stlLines x ≠ []) :
    ∃ lsAll, lsAll ≠ [] ∧ (∀ l ∈ lsAll, goodLine l) ∧
      repairStlL x = joinNL lsAll := by
  obtain ⟨lsW, hne, hgood, heq⟩ := stlWithSolid_join x hx
  unfold repairStlL
  by_cases he : containsEndsolid (stlWithSolid x) = true
  · rw [if_pos he]
    exact ⟨lsW, hne, hgood, heq⟩
  · rw [if_neg he]
    refine ⟨lsW ++ ["endsolid model".data], by simp, ?_, ?_⟩
    · intro l hl
      rcases List.mem_append.mp hl with h | h
      · exact hgood l h
      · rw [List.mem_singleton.mp h]; exact goodLine_endsolidModel
    · rw [heq, joinNL_append_single hne,
        show endsolidModelNL = '\n' :: "endsolid model".data from by decide]

theorem repairStl_clean (x : List Char) (hx : stlLines x ≠ []) :
    stlCleanL (repairStlL x) = repairStlL x := by
  obtain ⟨lsAll, hne, hgood, heq⟩ := repairStl_join x hx
  rw [heq]
  exact stlClean_of_good hne hgood

theorem stlWithSolid_startsSolid (x : List Char) :
    startsSolid (stlWithSolid x) = true := by
  unfold stlWithSolid
  by_cases hs : startsSolid (stlCleanL x) = true
  · rw [if_pos hs]; exact hs
  · rw [if_neg hs]; rfl

theorem repairStl_startsSolid (x : List Char) :
    startsSolid (repairStlL x) = true := by
  unfold repairStlL
  by_cases he : containsEndsolid (stlWithSolid x) = true
  · rw [if_pos he]; exact stlWithSolid_startsSolid x
  · rw [if_neg he]
    exact startsTokenCI_append (stlWithSolid_startsSolid x) endsolid_boundary_arg

theorem repairStl_containsEndsolid (x : List Char) :
    containsEndsolid (repairStlL x) = true := by
  unfold repairStlL
  by_cases he : containsEndsolid (stlWithSolid x) = true
  · rw [if_pos he]; exact he
  · rw [if_neg he]
    exact containsTokenCI_append_left _ (by decide)

theorem repairStl_idem (x : List Char) (hx : stlLines x ≠ []) :
    repairStlL (repairStlL x) = repairStlL x := by
  have h1 := repairStl_clean x hx
  have h2 := repairStl_startsSolid x
  have h3 := repairStl_containsEndsolid x
  have hw : stlWithSolid (repairStlL x) = repairStlL x := by
    unfold stlWithSolid
    rw [h1, if_pos h2]
  conv_lhs => rw [repairStlL]
  rw [hw, if_pos h3]

theorem repairStl_empty (x : List Char) (hx : stlLines x = []) :
    repairStlL x = "solid model\n\nendsolid model".data := by
  have hclean : stlCleanL x = [] := by
    unfold stlCleanL
    rw [hx]
    rfl
  have hw : stlWithSolid x = solidModelNL := by
    unfold stlWithSolid
    rw [hclean]
    decide
  unfold repairStlL
  rw [hw]
  decide

theorem splitOnChar_head (sep : Char) (l : List Char) :
    (splitOnChar sep l).head? = some (l.takeWhile fun x => !(x == sep)) := by
  induction l with
  | nil => rfl
  | cons c rest ih =>
    by_cases hc : c = sep
    · subst hc
      simp [splitOnChar, List.takeWhile_cons]
    · simp only [splitOnChar, if_neg hc]
      rcases h : splitOnChar sep rest with _ | ⟨y, ys⟩
      · exact absurd h (splitOnChar_ne_nil sep rest)
      · rw [h] at ih
        simp only [List.head?_cons, Option.some.injEq] at ih
        simp [List.takeWhile_cons, hc, ← ih]

theorem joinNL_splitOnNL (l : List Char) : joinNL (splitOnNL l) = l := by
  induction l with
  | nil => rfl
  | cons c rest ih =>
    show joinNL (splitOnChar '\n' (c :: rest)) = c :: rest
    by_cases hc : c = '\n'
    · subst hc
      simp only [splitOnChar, if_true, eq_self_iff_true]
      rw [joinNL_cons (splitOnChar_ne_nil '\n' rest)]
      simp only [List.nil_append]
      rw [show splitOnChar '\n' rest = splitOnNL rest from rfl, ih]
    · simp only [splitOnChar, if_neg hc]
      rcases h : splitOnChar '\n' rest with _ | ⟨y, ys⟩
      · exact absurd h (splitOnChar_ne_nil '\n' rest)
      · rw [show splitOnChar '\n' rest = splitOnNL rest from rfl] at h
        rw [h] at ih
        cases ys with
        | nil =>
          show joinNL [c :: y] = c :: rest
          have : joinNL [y] = y := rfl
          rw [this] at ih
          simp [joinNL, ih]
        | cons z zs =>
          rw [joinNL_cons (by simp)] at ih ⊢
          rw [← ih]
          simp

theorem repairStl_ne_nil (x : List Char) : repairStlL x ≠ [] := by
  intro h
  have := repairStl_startsSolid x
  rw [h] at this
  exact absurd this (by decide)

/-! ## SCAD repairer lemmas -/

theorem scadAssignRest_shorter {l r5 : List Char}
    (h : scadAssignRest l = some r5) :
    r5.length + 1 ≤ (l.dropWhile isJsSpace).length := by
  unfold scadAssignRest at h
  split at h
  · cases h
  · rename_i c rest hdrop
    split at h
    · split at h
      · rename_i r4 hr3
        split at h
        · rename_i hkw
          have hr5 : r5 = r4.dropWhile isJsSpace := (Option.some.injEq _ _ ▸ h).symm
          have h5 : (r4.dropWhile isJsSpace).length ≤ r4.length :=
            (List.dropWhile_suffix _).sublist.length_le
          have e1 : ((rest.dropWhile isWordChar).dropWhile isJsSpace).length
              ≤ (rest.dropWhile isWordChar).length :=
            (List.dropWhile_suffix _).sublist.length_le
          have e2 : (rest.dropWhile isWordChar).length ≤ rest.length :=
            (List.dropWhile_suffix _).sublist.length_le
          rw [hr3] at e1
          simp only [List.length_cons] at e1
          rw [hdrop, hr5]
          simp only [List.length_cons]
          omega
        · cases h
      · cases h
    · cases h

theorem scadAssignMatch_shorter {l l2 : List Char}
    (h : scadAssignMatch l = some l2) : l2.length < l.length := by
  unfold scadAssignMatch at h
  rcases hrest : scadAssignRest l with _ | r5
  · rw [hrest] at h; cases h
  · rw [hrest] at h
    simp only [Option.map_some', Option.some.injEq] at h
    have hb := scadAssignRest_shorter hrest
    have hsplit : l.length = (l.takeWhile isJsSpace).length +
        (l.dropWhile isJsSpace).length := by
      conv_lhs => rw [← List.takeWhile_append_dropWhile isJsSpace l]
      exact List.length_append _ _
    rw [← h]
    simp only [List.length_append]
    omega

theorem scadAssignMatch_decomp {l l2 : List Char}
    (h : scadAssignMatch l = some l2) :
    ∃ ws mid rest5, l = ws ++ mid ++ rest5 ∧ l2 = ws ++ rest5 ∧
      (∀ c ∈ ws, isJsSpace c = true) ∧ mid ≠ [] ∧
      (∃ c0 midTail, mid = c0 :: midTail ∧ isIdentStart c0 = true) ∧
      '=' ∈ mid ∧ startsGeomKw rest5 = true := by
  unfold scadAssignMatch at h
  rcases hrest : scadAssignRest l with _ | r5
  · rw [hrest] at h; cases h
  · rw [hrest] at h
    simp only [Option.map_some', Option.some.injEq] at h
    unfold scadAssignRest at hrest
    split at hrest
    · cases hrest
    · rename_i c rest hdrop
      split at hrest
      · rename_i hident
        split at hrest
        · rename_i r4 hr3
          split at hrest
          · rename_i hkw
            have hr5 : r5 = r4.dropWhile isJsSpace :=
              (Option.some.injEq _ _ ▸ hrest).symm
            refine ⟨l.takeWhile isJsSpace,
              c :: (rest.takeWhile isWordChar ++
                ((rest.dropWhile isWordChar).takeWhile isJsSpace ++
                  ('=' :: r4.takeWhile isJsSpace))),
              r4.dropWhile isJsSpace, ?_, ?_, ?_, by simp, ?_, ?_, ?_⟩
            · conv_lhs => rw [← List.takeWhile_append_dropWhile isJsSpace l]
              rw [hdrop]
              have hrestsplit : rest =
                  rest.takeWhile isWordChar ++
                    ((rest.dropWhile isWordChar).takeWhile isJsSpace ++
                      ('=' :: (r4.takeWhile isJsSpace ++
                        r4.dropWhile isJsSpace))) := by
                conv_lhs =>
                  rw [← List.takeWhile_append_dropWhile isWordChar rest]
                congr 1
                conv_lhs =>
                  rw [← List.takeWhile_append_dropWhile isJsSpace
                    (rest.dropWhile isWordChar)]
                rw [hr3]
                congr 1
                rw [List.takeWhile_append_dropWhile]
              conv_lhs => rw [hrestsplit]
              simp [List.append_assoc]
            · rw [← h, hr5]
            · intro d hd
              exact List.mem_takeWhile_imp hd
            · exact ⟨c, _, rfl, hident⟩
            · simp
            · exact hkw
          · cases hrest
        · cases hrest
      · cases hrest

theorem scadMap_getD_self {adj : List (List Char)}
    (h : ∀ l ∈ adj, scadAssignMatch l = none) :
    adj.map (fun l => (scadAssignMatch l).getD l) = adj := by
  conv_rhs => rw [← List.map_id adj]
  exact List.map_congr_left fun l hl => by rw [h l hl]; rfl

theorem scadMap_getD_ne {adj : List (List Char)}
    (h : adj.any (fun l => (scadAssignMatch l).isSome) = true) :
    adj.map (fun l => (scadAssignMatch l).getD l) ≠ adj := by
  induction adj with
  | nil => simp at h
  | cons a t ih =>
    simp only [List.any_cons, Bool.or_eq_true] at h
    intro hmap
    simp only [List.map_cons, List.cons.injEq] at hmap
    obtain ⟨h1, h2⟩ := hmap
    rcases h with hsome | hany
    · rcases hopt : scadAssignMatch a with _ | l2
      · rw [hopt] at hsome; cases hsome
      · rw [hopt] at h1
        simp only [Option.getD_some] at h1
        have := scadAssignMatch_shorter hopt
        rw [h1] at this
        omega
    · exact ih hany h2

/-! ## OFF parser lemmas -/

theorem readVertexLines_short : ∀ {n : ℕ} {ls : List (List Char)},
    ls.length < n → ∃ e, readVertexLines n ls = .error e := by
  intro n
  induction n with
  | zero => intro ls h; omega
  | succ m ih =>
    intro ls h
    cases ls with
    | nil => exact ⟨_, rfl⟩
    | cons line rest =>
      simp only [List.length_cons] at h
      obtain ⟨e, he⟩ := @ih rest (by omega)
      by_cases hp : ((splitWS line).map jsParseNum).length < 3
      · exact ⟨_, by simp only [readVertexLines]; rw [if_pos hp]⟩
      · refine ⟨e, ?_⟩
        simp only [readVertexLines]
        rw [if_neg hp, he]

theorem fanGo_zip (f0 : JsNum) : ∀ rest : List JsNum,
    fanGo f0 rest = (rest.zip rest.tail).flatMap fun p => [f0, p.1, p.2]
  | [] => by simp [fanGo]
  | [a] => by simp [fanGo]
  | a :: b :: r => by
    rw [fanGo, fanGo_zip f0 (b :: r)]
    simp only [List.tail_cons, List.zip_cons_cons, List.flatMap_cons]
    rfl

/-- The fan-triangulation spec: a face index list starting at its first
vertex yields one triangle per consecutive pair of the remaining
indices, each triangle led by the first vertex. -/
theorem fanTriangles_spec (f0 : JsNum) (rest : List JsNum) :
    fanTriangles (f0 :: rest) =
      (rest.zip rest.tail).flatMap (fun p => [f0, p.1, p.2]) :=
  fanGo_zip f0 rest

theorem faceContrib_short {line : List Char}
    (h : ((splitWS line).map jsParseNum).length < 4) :
    faceContrib line = [] := by
  simp only [faceContrib]
  rw [if_pos h]

theorem faceContrib_skip_small {line : List Char} {q : ℚ} {tl : List JsNum}
    (hp : (splitWS line).map jsParseNum = JsNum.fin q :: tl)
    (h4 : ¬((splitWS line).map jsParseNum).length < 4)
    (hq : q < 3) : faceContrib line = [] := by
  simp only [faceContrib]
  rw [if_neg h4, hp]
  show (if q < 3 then [] else
    fanTriangles (List.take ((1 + q.floor).toNat - 1) tl)) = []
  rw [if_pos hq]

theorem faceContrib_fan {line : List Char} {q : ℚ} {tl : List JsNum}
    (hp : (splitWS line).map jsParseNum = JsNum.fin q :: tl)
    (h4 : ¬((splitWS line).map jsParseNum).length < 4)
    (hq : ¬(q < 3)) :
    faceContrib line = fanTriangles (tl.take ((1 + q.floor).toNat - 1)) := by
  simp only [faceContrib]
  rw [if_neg h4, hp]
  show (if q < 3 then [] else
    fanTriangles (List.take ((1 + q.floor).toNat - 1) tl)) =
      fanTriangles (tl.take ((1 + q.floor).toNat - 1))
  rw [if_neg hq]

/-! ## Claim C1 -/

/-- C1 counterexample: repairStlText is not idempotent on every input.
On the empty string the first application produces a blank line between
the synthetic solid header and the endsolid closer (the header is
prepended together with a line feed onto an empty cleaned body), and the
second application removes that blank line, so the two results differ. -/
theorem c1_counterexample :
    repairStlText "" = "solid model\n\nendsolid model" ∧
    repairStlText (repairStlText "") = "solid model\nendsolid model" ∧
    (repairStlText (repairStlText "") == repairStlText "") = false :=
  ⟨by decide, by decide, by decide⟩

/-- C1 amended: repairStlText is a pure function of its input, and it is
idempotent on every input whose cleaned body is non-empty (some line
survives cleaning); on every input whatsoever it reaches a fixed point
from the second application on. -/
theorem c1_amended (x : String) :
    (stlLines x.data ≠ [] →
      repairStlText (repairStlText x) = repairStlText x) ∧
    repairStlText (repairStlText (repairStlText x)) =
      repairStlText (repairStlText x) := by
  constructor
  · intro hx
    exact congrArg String.mk (repairStl_idem x.data hx)
  · by_cases hx : stlLines x.data = []
    · have h0 : repairStlText x = "solid model\n\nendsolid model" := by
        show String.mk (repairStlL x.data) = _
        rw [repairStl_empty x.data hx]
      rw [h0]
      decide
    · have hstr : repairStlText (repairStlText x) = repairStlText x :=
        congrArg String.mk (repairStl_idem x.data hx)
      rw [hstr]
      exact hstr

/-- C1 witness: the idempotence branch applied to a concrete input with
a non-empty cleaned body. -/
theorem c1_amended_witness :
    repairStlText (repairStlText "solid endsolid") =
      repairStlText "solid endsolid" :=
  (c1_amended "solid endsolid").1 (by decide)

/-! ## Claim C2 -/

/-- C2 counterexample: the repaired output of the input solid-space-
endsolid is that same single line; the line is a solid opener and also
carries an endsolid token, so no solid line occurs strictly before every
endsolid line and the line-level ordering claim fails. -/
theorem c2_counterexample :
    repairStlText "solid endsolid" = "solid endsolid" ∧
    startsSolid "solid endsolid".data = true ∧
    containsEndsolid "solid endsolid".data = true ∧
    stlSolidBeforeEndsolidB "solid endsolid" = false :=
  ⟨by decide, by decide, by decide, by decide⟩

/-- C2 amended: for every input the first line of the repaired output is
a case-insensitive solid opener, some line of the output carries a
case-insensitive endsolid token, and every line carrying an endsolid
token occurs no earlier than a solid opener line (the opener and an
endsolid occurrence can share one line, as for input solid-space-
endsolid, so strictly-before does not always hold). -/
theorem c2_amended (x : String) :
    ∃ l0, (splitOnNL (repairStlL x.data)).head? = some l0 ∧
      startsSolid l0 = true ∧
      (∃ l ∈ splitOnNL (repairStlL x.data), containsEndsolid l = true) ∧
      ∀ j : Fin (splitOnNL (repairStlL x.data)).length,
        containsEndsolid ((splitOnNL (repairStlL x.data)).get j) = true →
        ∃ i : Fin (splitOnNL (repairStlL x.data)).length,
          i.val ≤ j.val ∧
            startsSolid ((splitOnNL (repairStlL x.data)).get i) = true := by
  have hhead : (splitOnNL (repairStlL x.data)).head? =
      some ((repairStlL x.data).takeWhile fun c => !(c == '\n')) :=
    splitOnChar_head '\n' (repairStlL x.data)
  have hsolid0 : startsSolid
      ((repairStlL x.data).takeWhile fun c => !(c == '\n')) = true :=
    startsTokenCI_takeWhileNL (by decide) (repairStl_startsSolid x.data)
  refine ⟨_, hhead, hsolid0, ?_, ?_⟩
  · have hc : containsTokenCI "endsolid".data
        (joinNL (splitOnNL (repairStlL x.data))) = true := by
      rw [joinNL_splitOnNL]
      exact repairStl_containsEndsolid x.data
    exact containsTokenCI_joinNL (by decide) hc
  · intro j hj
    have hlen : 0 < (splitOnNL (repairStlL x.data)).length := by
      rcases hsplit : splitOnNL (repairStlL x.data) with _ | ⟨a, t⟩
      · rw [hsplit] at hhead; cases hhead
      · simp
    refine ⟨⟨0, hlen⟩, Nat.zero_le _, ?_⟩
    have h0 : (splitOnNL (repairStlL x.data))[0]? =
        some ((repairStlL x.data).takeWhile fun c => !(c == '\n')) := by
      rw [← List.head?_eq_getElem?]
      exact hhead
    rw [List.getElem?_eq_getElem hlen] at h0
    have hget : (splitOnNL (repairStlL x.data)).get ⟨0, hlen⟩ =
        ((repairStlL x.data).takeWhile fun c => !(c == '\n')) :=
      Option.some.inj h0
    rw [hget]
    exact hsolid0

/-- C2 witness: the ordering statement applied at a concrete input and a
concrete endsolid line. -/
theorem c2_amended_witness :
    ∃ i : Fin (splitOnNL (repairStlL ("" : String).data)).length,
      i.val ≤ 2 ∧
        startsSolid ((splitOnNL (repairStlL ("" : String).data)).get i) =
          true := by
  obtain ⟨l0, h1, h2, h3, h4⟩ := c2_amended ""
  exact h4 ⟨2, by decide⟩ (by decide)

/-! ## Claim C3 -/

/-- C3: the SCAD parse path rejects non-empty compiler output.  The
output test in parseScad uses a doubly escaped regex that requires the
literal characters backslash-b after solid, so ordinary non-empty STL
output such as a solid-model body raises the compile-failure error even
though the engine returned non-empty STL text, while a string containing
a literal backslash-b is accepted. -/
theorem c3_code_bug :
    parseScadThrows "solid model\nendsolid model" = true ∧
    ("solid model\nendsolid model" == "") = false ∧
    parseScadThrows "" = true ∧
    parseScadThrows "here solid\\b there" = false :=
  ⟨by decide, by decide, by decide, by decide⟩

/-! ## Claim C4 -/

/-- C4: the triangle statistic is fractional on indexed geometry.  The
OFF fixture parses to a geometry with four position vertices and an
index list describing two triangles, yet computeObjectStats divides the
position count by three, giving the statistic four thirds, whose
denominator is three, not an integer; the validator nonetheless accepts
the model since the statistic is positive. -/
theorem c4_code_bug :
    ∃ g, parseOff offFixture = .ok g ∧ positionCount g = 4 ∧
      g.indices.length / 3 = 2 ∧
      computeStatsTriangles [positionCount g] = mkRat 4 3 ∧
      (computeStatsTriangles [positionCount g]).den = 3 ∧
      validTriangleStat (computeStatsTriangles [positionCount g]) = true := by
  refine ⟨⟨[.fin 0, .fin 0, .fin 0, .fin 1, .fin 0, .fin 0,
    .fin 1, .fin 1, .fin 0, .fin 0, .fin 1, .fin 0],
    [.fin 0, .fin 1, .fin 2, .fin 0, .fin 2, .fin 3]⟩,
    by decide, by decide, by decide, ?_, ?_, ?_⟩
  · show computeStatsTriangles [4] = mkRat 4 3
    rw [Rat.mkRat_eq_divInt, Rat.divInt_eq_div]
    simp [computeStatsTriangles]
  · show (computeStatsTriangles [4]).den = 3
    have h : computeStatsTriangles [4] = mkRat 4 3 := by
      rw [Rat.mkRat_eq_divInt, Rat.divInt_eq_div]
      simp [computeStatsTriangles]
    rw [h]
    decide
  · show validTriangleStat (computeStatsTriangles [4]) = true
    have h : computeStatsTriangles [4] = mkRat 4 3 := by
      rw [Rat.mkRat_eq_divInt, Rat.divInt_eq_div]
      simp [computeStatsTriangles]
    rw [h]
    decide

/-! ## Claim C5 -/

set_option maxRecDepth 100000 in
/-- C5 counterexample: pasted-text detection is not limited to the first
512 characters.  On content made of 512 junk characters followed by a
SCAD keyword, detection over the full text classifies scad, although the
first 512 characters alone carry no evidence and classify as nothing. -/
theorem c5_counterexample :
    detectFormatFromText beyond512Scad = some FormatTag.scad ∧
    detectFormatFromText (String.mk (beyond512Scad.data.take 512)) = none :=
  ⟨by decide, by decide⟩

set_option maxRecDepth 100000 in
/-- C5 amended: only the file path truncates to 512 characters before
detection: file detection depends only on the first 512 characters of
the content (the caller decodes just that header), while pasted-text
detection applies the same ordered heuristics to the entire content, so
text whose only evidence lies beyond the first 512 characters is still
classified on the pasted path but stays unknown on the file path.
(The recursion-depth option is raised for the 512-character kernel
evaluations.) -/
theorem c5_amended :
    (∀ name c1 c2 : String, headerOf c1 = headerOf c2 →
      fileDetect name c1 = fileDetect name c2) ∧
    detectFormatFromText beyond512Scad = some FormatTag.scad ∧
    fileDetect "mystery" beyond512Scad = none := by
  refine ⟨?_, by decide, by decide⟩
  intro name c1 c2 h
  unfold fileDetect
  rw [h]

set_option maxRecDepth 100000 in
/-- C5 witness: two contents agreeing on their first 512 characters and
differing later receive the same file-path classification. -/
theorem c5_amended_witness :
    fileDetect "m" (String.mk (List.replicate 513 'a')) =
      fileDetect "m" (String.mk (List.replicate 512 'a' ++ ['b'])) :=
  c5_amended.1 "m" _ _ (by decide)

/-! ## Claim C6 -/

/-- C6: the SCAD repairer rewrites exactly the assignment misuse: the
assignment fixture is rewritten with the changed flag set, the transform
fixture is returned unchanged with the flag clear, and in general the
flag is set exactly when some line was rewritten (a rewritten line is
strictly shorter, so rewriting always changes the line). -/
theorem c6_holds :
    repairScadText "r = sphere(5);" = ("sphere(5);", true) ∧
    repairScadText "translate([1,0,0]) cube(2);" =
      ("translate([1,0,0]) cube(2);", false) ∧
    ∀ s : String, (repairScadText s).2 = true ↔
      (scadAdjLines s).map (fun l => (scadAssignMatch l).getD l) ≠
        scadAdjLines s := by
  refine ⟨by decide, by decide, ?_⟩
  intro s
  show ((scadAdjLines s).any fun l => (scadAssignMatch l).isSome) = true ↔ _
  constructor
  · exact fun h => scadMap_getD_ne h
  · intro hne
    by_contra hnot
    rw [Bool.not_eq_true, List.any_eq_false] at hnot
    refine hne (scadMap_getD_self fun l hl => ?_)
    have h2 := hnot l hl
    rcases hopt : scadAssignMatch l with _ | l2
    · rfl
    · rw [hopt] at h2
      simp at h2

/-- C6 witness: the general direction of the iff applied at the
assignment fixture. -/
theorem c6_witness :
    (scadAdjLines "r = sphere(5);").map
        (fun l => (scadAssignMatch l).getD l) ≠
      scadAdjLines "r = sphere(5);" :=
  (c6_holds.2.2 "r = sphere(5);").mp (by decide)

/-! ## Claim C7 -/

/-- C7: the internal OFF parser parses the fixture into geometry with
four position vertices and two fan triangles without error; it fails
when the counts are missing or non-numeric and when fewer than
vertex-count vertex lines remain; the reading loop for vertices always
errors when the lines run out early; fan triangulation emits one
triangle per consecutive pair of the face indices after the first, each
led by the first index; and a face line with fewer than four tokens, or
with a declared vertex count below three, contributes no triangles. -/
theorem c7_holds :
    (∃ g, parseOff offFixture = .ok g ∧ positionCount g = 4 ∧
      g.indices.length / 3 = 2 ∧
      g.indices = [.fin 0, .fin 1, .fin 2, .fin 0, .fin 2, .fin 3]) ∧
    parseOff "OFF" = .error "OFF vertex count missing." ∧
    parseOff "OFF\nx y" = .error "OFF counts are invalid." ∧
    parseOff "OFF\n4 2 0\n0 0 0\n1 0 0" =
      .error "OFF vertex data is incomplete." ∧
    (∀ n ls, ls.length < n → ∃ e, readVertexLines n ls = Except.error e) ∧
    (∀ (f0 : JsNum) (rest : List JsNum), fanTriangles (f0 :: rest) =
      (rest.zip rest.tail).flatMap fun p => [f0, p.1, p.2]) ∧
    (∀ line, ((splitWS line).map jsParseNum).length < 4 →
      faceContrib line = []) ∧
    (∀ line q tl, (splitWS line).map jsParseNum = JsNum.fin q :: tl →
      ¬((splitWS line).map jsParseNum).length < 4 → q < 3 →
      faceContrib line = []) := by
  refine ⟨⟨⟨[.fin 0, .fin 0, .fin 0, .fin 1, .fin 0, .fin 0,
      .fin 1, .fin 1, .fin 0, .fin 0, .fin 1, .fin 0],
      [.fin 0, .fin 1, .fin 2, .fin 0, .fin 2, .fin 3]⟩,
      by decide, by decide, by decide, by decide⟩,
    by decide, by decide, by decide,
    fun n ls h => readVertexLines_short h,
    fanTriangles_spec,
    fun line h => faceContrib_short h,
    fun line q tl hp h4 hq => faceContrib_skip_small hp h4 hq⟩

/-- C7 witness: the quantified parts applied at concrete inputs: a
vertex-line reader starved of lines errors, a three-token face line is
skipped, and a face declaring two vertices is skipped. -/
theorem c7_witness :
    (∃ e, readVertexLines 2 [] = Except.error e) ∧
    faceContrib "2 0 1".data = [] ∧
    faceContrib "2 0 1 2".data = [] := by
  refine ⟨c7_holds.2.2.2.2.1 2 [] (by decide),
    c7_holds.2.2.2.2.2.2.1 "2 0 1".data (by decide),
    c7_holds.2.2.2.2.2.2.2 "2 0 1 2".data 2
      [.fin 0, .fin 1, .fin 2] (by decide) (by decide) (by decide)⟩

/-! ## Claim C8 -/

/-- C8: SCAD repair is automatic and bounded.  For every compiler
behavior and every input text, at most two compile calls occur and the
first is on the original text; moreover exactly one of three outcomes
holds: the first compile succeeds and nothing else runs; the first
compile fails and the repairer reports no change, in which case the
original diagnostic is surfaced without a recompile; or the repairer
changed the text, in which case exactly one recompile runs and its
success or failure is final. -/
theorem c8_holds (render : String → RenderOutcome) (text : String) :
    (fixScadTrace render text).length ≤ 2 ∧
    (fixScadTrace render text).head? = some text ∧
    ((∃ out, compileScadModel render text = .ok out ∧
        fixScadTrace render text = [text] ∧
        fixScadModel render text = ⟨text, false, true, none⟩) ∨
     (∃ e, compileScadModel render text = .error e ∧
        (repairScadText text).2 = false ∧
        fixScadTrace render text = [text] ∧
        fixScadModel render text = ⟨text, false, false, some e⟩) ∨
     (∃ e, compileScadModel render text = .error e ∧
        (repairScadText text).2 = true ∧
        fixScadTrace render text = [text, (repairScadText text).1] ∧
        ((∃ out2, compileScadModel render (repairScadText text).1 = .ok out2 ∧
            fixScadModel render text =
              ⟨(repairScadText text).1, true, true, none⟩) ∨
         (∃ e2, compileScadModel render (repairScadText text).1 = .error e2 ∧
            fixScadModel render text =
              ⟨(repairScadText text).1, true, false, some e2⟩)))) := by
  rcases hc : compileScadModel render text with e | out
  · rcases hch : (repairScadText text).2 with _ | _
    · refine ⟨?_, ?_, Or.inr (Or.inl ⟨e, rfl, rfl, ?_, ?_⟩)⟩ <;>
        simp [fixScadTrace, fixScadModel, hc, hch]
    · rcases hc2 : compileScadModel render (repairScadText text).1
        with e2 | out2
      · refine ⟨?_, ?_, Or.inr (Or.inr ⟨e, rfl, rfl, ?_,
          Or.inr ⟨e2, rfl, ?_⟩⟩)⟩ <;>
          simp [fixScadTrace, fixScadModel, hc, hch, hc2]
      · refine ⟨?_, ?_, Or.inr (Or.inr ⟨e, rfl, rfl, ?_,
          Or.inl ⟨out2, rfl, ?_⟩⟩)⟩ <;>
          simp [fixScadTrace, fixScadModel, hc, hch, hc2]
  · refine ⟨?_, ?_, Or.inl ⟨out, rfl, ?_, ?_⟩⟩ <;>
      simp [fixScadTrace, fixScadModel, hc]

/-! ## Claim C9 -/

/-- C9: after a user-confirmed STL repair, the prompt is never raised
again within the attempt, a no-fixable-issues report is produced exactly
when the repaired text is identical to the original (the repairer never
returns the empty string, which the source also treats as no fix), and
the parser is re-invoked exactly when the report is not produced. -/
theorem c9_holds {α : Type} (parse : String → Except String α)
    (validate : α → Option String) (pending : String) :
    (applyRepairModel parse validate pending).promptRaised = false ∧
    ((applyRepairModel parse validate pending).noFixReported = true ↔
      repairStlText pending = pending) ∧
    (applyRepairModel parse validate pending).parserCalled =
      !(applyRepairModel parse validate pending).noFixReported := by
  have hne : repairStlText pending ≠ "" := by
    intro hcontra
    have := congrArg String.data hcontra
    exact repairStl_ne_nil pending.data this
  unfold applyRepairModel
  by_cases hp : repairStlText pending = pending
  · rw [if_pos (Or.inr hp)]
    exact ⟨rfl, by simp [hp], rfl⟩
  · rw [if_neg (by rintro (h | h); exact hne h; exact hp h)]
    rcases hparse : parse (repairStlText pending) with e | obj
    · simp [loadInputModel, hparse, hp]
    · rcases hval : validate obj with _ | msg <;>
        simp [loadInputModel, hparse, hval, hp]

/-- C9 witness: a confirmed repair on already-repaired text reports
no fixable issues. -/
theorem c9_witness :
    (applyRepairModel (fun _ => (Except.ok () : Except String Unit))
      (fun _ => none) "solid model\nendsolid model").noFixReported = true :=
  ((c9_holds (fun _ => (Except.ok () : Except String Unit))
    (fun _ => none) "solid model\nendsolid model").2.1).mpr (by decide)

/-! ## Claim C10 -/

theorem zip_map_self {α β : Type} (f : α → β) :
    ∀ l : List α, l.zip (l.map f) = l.map fun a => (a, f a)
  | [] => rfl
  | a :: t => by
    simp only [List.map_cons, List.zip_cons_cons]
    rw [zip_map_self f t]

theorem mem_bomStrip {c : Char} {l : List Char} (h : c ∈ bomStrip l) :
    c ∈ l := by
  unfold bomStrip at h
  split at h
  · exact List.mem_cons_of_mem _ h
  · exact h

theorem scadAdjLines_ne_nil (s : String) : scadAdjLines s ≠ [] := by
  unfold scadAdjLines
  rcases hsplit : splitOnNL (normCR s.data) with _ | ⟨l0, rest⟩
  · exact absurd hsplit (splitOnChar_ne_nil '\n' (normCR s.data))
  · simp

theorem scadAdjLines_no_nl (s : String) :
    ∀ l ∈ scadAdjLines s, '\n' ∉ l := by
  intro l hl
  unfold scadAdjLines at hl
  rcases hsplit : splitOnNL (normCR s.data) with _ | ⟨l0, rest⟩
  · exact absurd hsplit (splitOnChar_ne_nil '\n' (normCR s.data))
  · rw [hsplit] at hl
    intro hc
    rcases List.mem_cons.mp hl with rfl | hmem
    · have hl0 : l0 ∈ splitOnNL (normCR s.data) := by
        rw [hsplit]; exact List.mem_cons_self _ _
      exact (mem_of_mem_splitOnChar hl0 (mem_bomStrip hc)).2 rfl
    · have hlm : l ∈ splitOnNL (normCR s.data) := by
        rw [hsplit]; exact List.mem_cons_of_mem _ hmem
      exact (mem_of_mem_splitOnChar hlm hc).2 rfl

theorem scadAssignMatch_chars {l l2 : List Char}
    (h : scadAssignMatch l = some l2) : ∀ c ∈ l2, c ∈ l := by
  obtain ⟨ws, mid, rest5, hl, hl2, _, _, _, _, _⟩ := scadAssignMatch_decomp h
  intro c hc
  rw [hl2] at hc
  rw [hl]
  rcases List.mem_append.mp hc with h1 | h2
  · exact List.mem_append.mpr (Or.inl (List.mem_append.mpr (Or.inl h1)))
  · exact List.mem_append.mpr (Or.inr h2)

/-- C10: on inputs whose line endings are already plain line feeds, the
SCAD repairer works line by line: the working lines are exactly the
input lines with a leading byte order mark removed from the first line
only; the output splits back into one output line per working line; the
changed flag is computed from pattern matches alone, so the byte order
mark removal never sets it; and every working line is either returned
character for character unchanged (no pattern match) or rewritten by
dropping exactly an identifier-equals prefix after the preserved leading
whitespace, the rest of the line starting at the geometry keyword being
kept untouched. -/
theorem c10_holds (s : String) (hcr : ∀ c ∈ s.data, c ≠ '\r') :
    (scadAdjLines s = match splitOnNL s.data with
      | [] => []
      | l0 :: rest => bomStrip l0 :: rest) ∧
    (scadAdjLines s).length = (splitOnNL s.data).length ∧
    splitOnNL (repairScadText s).1.data =
      (scadAdjLines s).map (fun l => (scadAssignMatch l).getD l) ∧
    (repairScadText s).2 =
      ((scadAdjLines s).any fun l => (scadAssignMatch l).isSome) ∧
    ∀ p ∈ (scadAdjLines s).zip
        ((scadAdjLines s).map fun l => (scadAssignMatch l).getD l),
      (scadAssignMatch p.1 = none ∧ p.2 = p.1) ∨
      (∃ ws mid rest5, p.1 = ws ++ mid ++ rest5 ∧ p.2 = ws ++ rest5 ∧
        (∀ c ∈ ws, isJsSpace c = true) ∧ mid ≠ [] ∧
        (∃ c0 midTail, mid = c0 :: midTail ∧ isIdentStart c0 = true) ∧
        '=' ∈ mid ∧ startsGeomKw rest5 = true) := by
  have hnocr : '\r' ∉ s.data := fun h => hcr '\r' h rfl
  have hadj : scadAdjLines s = match splitOnNL s.data with
      | [] => []
      | l0 :: rest => bomStrip l0 :: rest := by
    unfold scadAdjLines
    rw [normCR_eq_self hnocr]
  refine ⟨hadj, ?_, ?_, rfl, ?_⟩
  · rw [hadj]
    rcases hsplit : splitOnNL s.data with _ | ⟨l0, rest⟩
    · exact absurd hsplit (splitOnChar_ne_nil '\n' s.data)
    · simp
  · show splitOnNL (joinNL ((scadAdjLines s).map
        fun l => (scadAssignMatch l).getD l)) = _
    apply splitOnNL_joinNL
    · simp [scadAdjLines_ne_nil s]
    · intro x hx
      rcases List.mem_map.mp hx with ⟨a, ha, rfl⟩
      intro hc
      rcases hm : scadAssignMatch a with _ | l2
      · rw [hm] at hc
        exact scadAdjLines_no_nl s a ha hc
      · rw [hm] at hc
        simp only [Option.getD_some] at hc
        exact scadAdjLines_no_nl s a ha (scadAssignMatch_chars hm '\n' hc)
  · intro p hp
    rw [zip_map_self (fun l => (scadAssignMatch l).getD l)
      (scadAdjLines s)] at hp
    rcases List.mem_map.mp hp with ⟨a, ha, rfl⟩
    rcases hm : scadAssignMatch a with _ | l2
    · exact Or.inl ⟨rfl, rfl⟩
    · right
      obtain ⟨ws, mid, rest5, hl, hl2, hws, hmid, hid, heq, hkw⟩ :=
        scadAssignMatch_decomp hm
      exact ⟨ws, mid, rest5, hl, hl2, hws, hmid, hid, heq, hkw⟩

/-- C10 witness: the changed-flag conjunct at a concrete line-feed-only
input whose second line matches the assignment pattern. -/
theorem c10_witness :
    (repairScadText "cube(1);\nr = sphere(5);").2 =
      ((scadAdjLines "cube(1);\nr = sphere(5);").any
        fun l => (scadAssignMatch l).isSome) :=
  (c10_holds "cube(1);\nr = sphere(5);" (by decide)).2.2.2.1
